import Mathlib

/-
  Verification development for the yang-rs YANG (RFC 7950) parser and
  reference resolver.

  The data model below is a shallow embedding of `src/ir.rs`; the resolver
  functions embed `src/resolver.rs`; the walker helpers embed the relevant
  functions of `src/parser.rs`.  Rust `String` values (names, paths, uses
  arguments) are embedded as `List Char`, so that the char-level operations
  the source performs (split('/'), join("/"), starts_with, find(':'),
  byte-slicing around one-byte delimiters) can be stated and proved by list
  induction.  `HashMap` fields are embedded as association lists with
  first-match lookup; the resolver only ever reads these tables.

  The Rust resolver recurses both through the tree and through the contents
  of spliced-in groupings, and the latter recursion is not structurally
  decreasing (a grouping whose body reaches a uses of that same grouping
  would make the Rust program diverge).  The embedding therefore takes an
  explicit fuel parameter; every recursive call consumes one unit.  All
  theorems below either hold for every fuel value or are stated for a fuel
  value large enough to complete resolution of the concrete input at hand.
-/

namespace YangRs

/-- Rust `String` contents as a character list. -/
abbrev Str := List Char

/-- Status value (`ir.rs`). -/
inductive Status where
  | Current
  | Obsolete
  | Deprecated
deriving DecidableEq

/-- Ordered by value (`ir.rs`). -/
inductive OrderedBy where
  | User
  | System
deriving DecidableEq

/-- Max elements value (`ir.rs`): `Unbounded` or `Value(i64)`. -/
inductive MaxElements where
  | Unbounded
  | Value (v : Int)
deriving DecidableEq

/-- When statement (`ir.rs`). -/
structure When where
  condition : Str
  description : Option Str
  reference : Option Str
deriving DecidableEq

/-- Must statement (`ir.rs`). -/
structure Must where
  condition : Str
  error_message : Option Str
  error_app_tag : Option Str
  description : Option Str
  reference : Option Str
deriving DecidableEq

/-- Range restriction (`ir.rs`). -/
structure Range where
  value : Str
  error_message : Option Str
  error_app_tag : Option Str
  description : Option Str
  reference : Option Str
deriving DecidableEq

/-- Length restriction (`ir.rs`). -/
structure Length where
  value : Str
  error_message : Option Str
  error_app_tag : Option Str
  description : Option Str
  reference : Option Str
deriving DecidableEq

/-- Pattern restriction (`ir.rs`). -/
structure Pattern where
  value : Str
  modifier : Option Str
  error_message : Option Str
  error_app_tag : Option Str
  description : Option Str
  reference : Option Str
deriving DecidableEq

/-- Enum value (`ir.rs`). -/
structure EnumValue where
  name : Str
  if_features : List Str
  value : Option Int
  status : Option Status
  description : Option Str
  reference : Option Str
deriving DecidableEq

/-- Bit value (`ir.rs`). -/
structure Bit where
  name : Str
  if_features : List Str
  position : Option Int
  status : Option Status
  description : Option Str
  reference : Option Str
deriving DecidableEq

mutual
/-- Type information (`ir.rs`): name plus optional body. -/
inductive TypeInfo where
  | mk (name : Str) (type_body : Option TypeBody) : TypeInfo
/-- Type body for specific type constraints (`ir.rs`). -/
inductive TypeBody where
  | Numerical (range : Range) : TypeBody
  | Decimal64 (fraction_digits : Str) (range : Option Range) : TypeBody
  | StringBody (length : Option Length) (patterns : List Pattern) : TypeBody
  | EnumBody (enums : List EnumValue) : TypeBody
  | Leafref (path : Str) (require_instance : Option Bool) : TypeBody
  | Identityref (bases : List Str) : TypeBody
  | InstanceIdentifier (require_instance : Bool) : TypeBody
  | Bits (bits : List Bit) : TypeBody
  | Union (types : List TypeInfo) : TypeBody
  | Binary (length : Option Length) : TypeBody
end

/-- Typedef statement (`ir.rs`). -/
structure TypeDef where
  name : Str
  type_info : TypeInfo
  units : Option Str
  default : Option Str
  status : Option Status
  description : Option Str
  reference : Option Str

/-- Leaf statement (`ir.rs`). -/
structure Leaf where
  name : Str
  when : Option When
  if_features : List Str
  type_info : TypeInfo
  units : Option Str
  must : List Must
  default : Option Str
  config : Option Bool
  mandatory : Option Bool
  status : Option Status
  description : Option Str
  reference : Option Str

/-- Leaf-list statement (`ir.rs`). -/
structure LeafList where
  name : Str
  when : Option When
  if_features : List Str
  type_info : TypeInfo
  units : Option Str
  must : List Must
  default : List Str
  config : Option Bool
  min_elements : Option Int
  max_elements : Option MaxElements
  ordered_by : Option OrderedBy
  status : Option Status
  description : Option Str
  reference : Option Str

/-- Anydata statement (`ir.rs`). -/
structure Anydata where
  name : Str
  when : Option When
  if_features : List Str
  must : List Must
  config : Option Bool
  mandatory : Option Bool
  status : Option Status
  description : Option Str
  reference : Option Str
deriving DecidableEq

/-- Anyxml statement (`ir.rs`). -/
structure Anyxml where
  name : Str
  when : Option When
  if_features : List Str
  must : List Must
  config : Option Bool
  mandatory : Option Bool
  status : Option Status
  description : Option Str
  reference : Option Str
deriving DecidableEq

/-- Refine statement (`ir.rs`). -/
structure Refine where
  target : Str
  if_features : List Str
  must : List Must
  presence : Option Str
  default : List Str
  config : Option Bool
  mandatory : Option Bool
  min_elements : Option Int
  max_elements : Option MaxElements
  description : Option Str
  reference : Option Str
deriving DecidableEq

/-- Argument for extension (`ir.rs`). -/
structure Argument where
  name : Str
  yin_element : Option Bool
deriving DecidableEq

/-- Extension statement (`ir.rs`). -/
structure Extension where
  name : Str
  argument : Option Argument
  status : Option Status
  description : Option Str
  reference : Option Str
deriving DecidableEq

/-- Feature statement (`ir.rs`). -/
structure Feature where
  name : Str
  if_features : List Str
  status : Option Status
  description : Option Str
  reference : Option Str
deriving DecidableEq

/-- Identity statement (`ir.rs`). -/
structure Identity where
  name : Str
  if_features : List Str
  bases : List Str
  status : Option Status
  description : Option Str
  reference : Option Str
deriving DecidableEq

/-- Deviate add (`ir.rs`). -/
structure DeviateAdd where
  units : Option Str
  must : List Must
  unique : List Str
  default : List Str
  config : Option Bool
  mandatory : Option Bool
  min_elements : Option Int
  max_elements : Option MaxElements
deriving DecidableEq

/-- Deviate delete (`ir.rs`). -/
structure DeviateDelete where
  units : Option Str
  must : List Must
  unique : List Str
  default : List Str
deriving DecidableEq

/-- Deviate replace (`ir.rs`). -/
structure DeviateReplace where
  type_info : Option TypeInfo
  units : Option Str
  default : List Str
  config : Option Bool
  mandatory : Option Bool
  min_elements : Option Int
  max_elements : Option MaxElements

/-- Deviation statement (`ir.rs`). -/
structure Deviation where
  target : Str
  description : Option Str
  reference : Option Str
  not_supported : Bool
  add : List DeviateAdd
  delete : List DeviateDelete
  replace : List DeviateReplace

/-- Meta information for modules (`ir.rs`). -/
structure MetaInfo where
  organization : Option Str
  contact : Option Str
  description : Option Str
  reference : Option Str
deriving DecidableEq

/-- Revision history entry (`ir.rs`). -/
structure Revision where
  date : Str
  description : Option Str
  reference : Option Str
deriving DecidableEq

/-- Belongs-to statement of a submodule (`ir.rs`); the source field
`prefix` is embedded as `pfx`. -/
structure BelongsTo where
  module : Str
  pfx : Str
deriving DecidableEq

/-
  The recursive part of the model: data definitions, the node kinds that
  own `Vec<DataDef>` sequences, and the reference-target kinds that embed
  data definitions (`Grouping`, `Augment`).  Rust's `List` struct is named
  `ListNode` here because `List` is taken by Lean's list type.  Field names
  and field order follow `ir.rs`; record-like members of the mutual block
  have a single `mk` constructor and explicitly defined projections below.
-/
mutual
/-- DataDef variants (`ir.rs`). -/
inductive DataDef where
  | Container (c : Container) : DataDef
  | Leaf (l : Leaf) : DataDef
  | LeafList (l : LeafList) : DataDef
  | List (l : ListNode) : DataDef
  | Choice (c : Choice) : DataDef
  | AnyData (a : Anydata) : DataDef
  | Anyxml (a : Anyxml) : DataDef
  | Uses (u : Uses) : DataDef
/-- Container statement (`ir.rs`). -/
inductive Container where
  | mk (name : Str) (when : Option When) (if_features : List Str)
      (must : List Must) (presence : Option Str) (config : Option Bool)
      (status : Option Status) (description : Option Str)
      (reference : Option Str) (data_defs : List DataDef)
      (actions : List Action) (notifications : List Notification) : Container
/-- List statement (`ir.rs` `List`). -/
inductive ListNode where
  | mk (name : Str) (when : Option When) (if_features : List Str)
      (must : List Must) (key : Option Str) (unique : List Str)
      (config : Option Bool) (min_elements : Option Int)
      (max_elements : Option MaxElements) (ordered_by : Option OrderedBy)
      (status : Option Status) (description : Option Str)
      (reference : Option Str) (data_defs : List DataDef)
      (actions : List Action) (notifications : List Notification) : ListNode
/-- Choice statement (`ir.rs`). -/
inductive Choice where
  | mk (name : Str) (when : Option When) (if_features : List Str)
      (default : Option Str) (config : Option Bool)
      (mandatory : Option Bool) (status : Option Status)
      (description : Option Str) (reference : Option Str)
      (cases : List Case) : Choice
/-- Case variants (`ir.rs`). -/
inductive Case where
  | LongCase (c : LongCase) : Case
  | ShortCase (c : ShortCase) : Case
/-- Case statement (`ir.rs`). -/
inductive LongCase where
  | mk (name : Str) (when : Option When) (if_features : List Str)
      (status : Option Status) (description : Option Str)
      (reference : Option Str) (data_defs : List DataDef) : LongCase
/-- Short case variants (`ir.rs`). -/
inductive ShortCase where
  | Choice (c : Choice) : ShortCase
  | Container (c : Container) : ShortCase
  | Leaf (l : Leaf) : ShortCase
  | LeafList (l : LeafList) : ShortCase
  | List (l : ListNode) : ShortCase
  | Anydata (a : Anydata) : ShortCase
  | Anyxml (a : Anyxml) : ShortCase
/-- Uses statement (`ir.rs`). -/
inductive Uses where
  | mk (grouping : Str) (when : Option When) (if_features : List Str)
      (status : Option Status) (description : Option Str)
      (reference : Option Str) (refines : List Refine)
      (augments : List Augment) : Uses
/-- Augment statement (`ir.rs`). -/
inductive Augment where
  | mk (target : Str) (when : Option When) (if_features : List Str)
      (status : Option Status) (description : Option Str)
      (reference : Option Str) (data_defs : List DataDef)
      (cases : List Case) (actions : List Action)
      (notifications : List Notification) : Augment
/-- Grouping statement (`ir.rs`). -/
inductive Grouping where
  | mk (name : Str) (status : Option Status) (description : Option Str)
      (reference : Option Str) (data_defs : List DataDef)
      (actions : List Action) (notifications : List Notification) : Grouping
/-- RPC statement (`ir.rs`). -/
inductive Rpc where
  | mk (name : Str) (if_features : List Str) (must : List Must)
      (status : Option Status) (description : Option Str)
      (reference : Option Str) (input : Option Input)
      (output : Option Output) : Rpc
/-- Input statement (`ir.rs`). -/
inductive Input where
  | mk (must : List Must) (data_defs : List DataDef) : Input
/-- Output statement (`ir.rs`). -/
inductive Output where
  | mk (must : List Must) (data_defs : List DataDef) : Output
/-- Action statement (`ir.rs`). -/
inductive Action where
  | mk (name : Str) (if_features : List Str) (must : List Must)
      (status : Option Status) (description : Option Str)
      (reference : Option Str) (input : Option Input)
      (output : Option Output) : Action
/-- Notification statement (`ir.rs`). -/
inductive Notification where
  | mk (name : Str) (if_features : List Str) (must : List Must)
      (status : Option Status) (description : Option Str)
      (reference : Option Str) (data_defs : List DataDef) : Notification
end

/-- Name of a container. -/
def Container.name : Container → Str
  | .mk n _ _ _ _ _ _ _ _ _ _ _ => n

/-- Data definitions of a container. -/
def Container.data_defs : Container → List DataDef
  | .mk _ _ _ _ _ _ _ _ _ d _ _ => d

/-- Name of a list statement. -/
def ListNode.name : ListNode → Str
  | .mk n _ _ _ _ _ _ _ _ _ _ _ _ _ _ _ => n

/-- Data definitions of a list statement. -/
def ListNode.data_defs : ListNode → List DataDef
  | .mk _ _ _ _ _ _ _ _ _ _ _ _ _ d _ _ => d

/-- Name of a choice. -/
def Choice.name : Choice → Str
  | .mk n _ _ _ _ _ _ _ _ _ => n

/-- Name of a long case. -/
def LongCase.name : LongCase → Str
  | .mk n _ _ _ _ _ _ => n

/-- Referenced grouping name of a uses statement. -/
def Uses.grouping : Uses → Str
  | .mk g _ _ _ _ _ _ _ => g

/-- Name of a grouping. -/
def Grouping.name : Grouping → Str
  | .mk n _ _ _ _ _ _ => n

/-- Data definitions of a grouping. -/
def Grouping.data_defs : Grouping → List DataDef
  | .mk _ _ _ _ d _ _ => d

/-- Name of an action. -/
def Action.name : Action → Str
  | .mk n _ _ _ _ _ _ _ => n

/-- Name of a notification. -/
def Notification.name : Notification → Str
  | .mk n _ _ _ _ _ _ => n

/-- All possible schema nodes appearing in a module body (`ir.rs`). -/
inductive SchemaNode where
  | Rpc (r : Rpc) : SchemaNode
  | Notification (n : Notification) : SchemaNode
  | DataDef (d : DataDef) : SchemaNode

/-- Reference-target side tables (`ir.rs` `ReferenceNodes`); the `HashMap`
fields are embedded as association lists keyed by absolute path. -/
structure ReferenceNodes where
  augments : List Augment
  deviations : List Deviation
  extensions : List Extension
  features : List (Str × Feature)
  groupings : List (Str × Grouping)
  identities : List (Str × Identity)
  type_defs : List (Str × TypeDef)

/-- YANG module (`ir.rs`); the source field `prefix` is embedded as `pfx`
and `namespace` as `namespace_uri` (both renamed only because of Lean
keyword and scanner restrictions). -/
structure Module where
  name : Str
  yang_version : Option Str
  namespace_uri : Str
  pfx : Str
  meta : MetaInfo
  revisions : List Revision
  body : List SchemaNode

/-- YANG submodule (`ir.rs`). -/
structure Submodule where
  name : Str
  yang_version : Option Str
  belongs_to : BelongsTo
  meta : MetaInfo
  revisions : List Revision
  body : List SchemaNode

/-
  String helpers embedding the char-level operations used by
  `ReferenceResolver::find_grouping` (`resolver.rs` lines 175-249).
-/

/-- Embedding of Rust `str::split(c)`: split a character list at every
occurrence of `c`; like Rust, the result always has one more part than
there are separators (so the empty string yields one empty part). -/
def splitChar (c : Char) : Str → List Str
  | [] => [[]]
  | x :: xs =>
    if x = c then [] :: splitChar c xs
    else
      match splitChar c xs with
      | g :: gs => (x :: g) :: gs
      | [] => [[x]]

/-- Embedding of Rust `[&str]::join(sep)`. -/
def joinWith (sep : Str) : List Str → Str
  | [] => []
  | [x] => x
  | x :: xs => x ++ sep ++ joinWith sep xs

/-- One ascent step of the local grouping lookup (`resolver.rs` lines
234-245): split the search path on `/`, drop the two trailing entries
(the last segment and the empty entry after the trailing slash), rejoin
with `/`, and restore the trailing slash; with at most two entries the
path collapses to the root `/`. -/
def ascend (search_path : Str) : Str :=
  let segments := splitChar '/' search_path
  if segments.length ≤ 2 then ['/']
  else
    let joined := joinWith ['/'] (segments.take (segments.length - 2))
    if joined.getLast? = some '/' then joined else joined ++ ['/']

/-- Embedding of `grouping_name.find(':')` plus the two slices
`&grouping_name[..idx]` and `&grouping_name[idx + 1..]` (`resolver.rs`
lines 177-179): the text before the first colon and the text after it,
or `none` when the name has no colon. -/
def splitColon : Str → Option (Str × Str)
  | [] => none
  | c :: cs =>
    if c = ':' then some ([], cs)
    else (splitColon cs).map (fun p => (c :: p.1, p.2))

/-- The reference resolver state (`resolver.rs` `ReferenceResolver`). -/
structure ReferenceResolver where
  reference_nodes : ReferenceNodes
  imported_modules : List (Str × ReferenceNodes)
  prefix_to_module : List (Str × Str)

/-- The local hierarchical lookup loop of `find_grouping` (`resolver.rs`
lines 212-246).  The Rust loop has no explicit bound; it terminates
because every ascent shortens a well-formed path, which the fuel argument
makes explicit (`find_grouping` passes one more unit than the path length,
enough for every path the resolver constructs; see
`find_grouping_local_eq_scope_lookup`). -/
def climb (groupings : List (Str × Grouping)) (grouping_name : Str) : Nat → Str → Option Grouping
  | 0, _ => none
  | fuel + 1, search_path =>
    match List.lookup (search_path ++ grouping_name) groupings with
    | some grouping => some grouping
    | none =>
      if search_path = ['/'] then none
      else climb groupings grouping_name fuel (ascend search_path)

/-- `ReferenceResolver::find_grouping` (`resolver.rs` lines 175-249):
prefixed names resolve through `prefix_to_module` and `imported_modules`
at the imported module's top level only; unprefixed names climb the local
scope hierarchy. -/
def find_grouping (r : ReferenceResolver) (grouping_name : Str) (current_path : Str) : Option Grouping :=
  match splitColon grouping_name with
  | some (pfx, name) =>
    match List.lookup pfx r.prefix_to_module with
    | some module_name =>
      match List.lookup module_name r.imported_modules with
      | some ref_nodes => List.lookup ('/' :: name) ref_nodes.groupings
      | none => none
    | none => none
  | none => climb r.reference_nodes.groupings grouping_name (current_path.length + 1) current_path

/-- The index/name recording pass of `resolve_data_defs` (`resolver.rs`
lines 254-261): the positions of all direct-child `Uses` nodes together
with their grouping names, in source order, starting at index `idx`. -/
def collectUses : Nat → List DataDef → List (Nat × Str)
  | _, [] => []
  | idx, d :: rest =>
    match d with
    | .Uses u => (idx, Uses.grouping u) :: collectUses (idx + 1) rest
    | _ => collectUses (idx + 1) rest

/-
  The resolver traversal (`resolver.rs` lines 27-292).  Each function
  embeds the Rust method of the same name; `&mut` mutation becomes value
  rebuilding.  Path extension happens exactly where the source performs
  it: `resolve_data_def_references` extends for container/list/choice,
  the container/list loops extend per action and per notification, the
  choice loop extends per long case, and rpc/action bodies append
  `input/` / `output/`.  Every call consumes one unit of fuel; at zero
  fuel the input is returned unchanged.
-/
mutual
/-- `ReferenceResolver::resolve_data_defs` (`resolver.rs` lines 252-292):
record the direct-child uses entries, process them in reverse order
(removing the uses node, inserting the found grouping's data_defs at the
same index and resolving the newly inserted window), then resolve every
remaining node of the sequence. -/
def resolve_data_defs : Nat → ReferenceResolver → List DataDef → Str → List DataDef
  | 0, _, data_defs, _ => data_defs
  | fuel + 1, r, data_defs, path =>
    let uses_indices := collectUses 0 data_defs
    let spliced := (uses_indices.reverse).foldl (fun acc p =>
      match find_grouping r p.2 path with
      | some grouping =>
        let grouping_data_defs := Grouping.data_defs grouping
        let removed := acc.eraseIdx p.1
        let inserted := removed.take p.1 ++ grouping_data_defs ++ removed.drop p.1
        inserted.take p.1
          ++ ((inserted.drop p.1).take grouping_data_defs.length).map
              (fun d => resolve_data_def_references fuel r d path)
          ++ inserted.drop (p.1 + grouping_data_defs.length)
      | none => acc) data_defs
    spliced.map (fun d => resolve_data_def_references fuel r d path)
/-- `ReferenceResolver::resolve_data_def_references` (`resolver.rs` lines
41-57): recurse into container, list and choice with the path extended by
the node's name; every other variant (including `Uses`) is untouched. -/
def resolve_data_def_references : Nat → ReferenceResolver → DataDef → Str → DataDef
  | 0, _, data_def, _ => data_def
  | fuel + 1, r, data_def, path =>
    match data_def with
    | .Container c => .Container (resolve_container_references fuel r c (path ++ Container.name c ++ ['/']))
    | .List l => .List (resolve_list_references fuel r l (path ++ ListNode.name l ++ ['/']))
    | .Choice c => .Choice (resolve_choice_references fuel r c (path ++ Choice.name c ++ ['/']))
    | _ => data_def
/-- `ReferenceResolver::resolve_container_references` (`resolver.rs` lines
59-71). -/
def resolve_container_references : Nat → ReferenceResolver → Container → Str → Container
  | 0, _, c, _ => c
  | fuel + 1, r, .mk name wh ifs mu pres cfg st ds rf dd acts nots, path =>
    .mk name wh ifs mu pres cfg st ds rf
      (resolve_data_defs fuel r dd path)
      (acts.map (fun a => resolve_action_references fuel r a (path ++ Action.name a ++ ['/'])))
      (nots.map (fun n => resolve_notification_references fuel r n (path ++ Notification.name n ++ ['/'])))
/-- `ReferenceResolver::resolve_list_references` (`resolver.rs` lines
73-85). -/
def resolve_list_references : Nat → ReferenceResolver → ListNode → Str → ListNode
  | 0, _, l, _ => l
  | fuel + 1, r, .mk name wh ifs mu key uniq cfg mins maxs ord st ds rf dd acts nots, path =>
    .mk name wh ifs mu key uniq cfg mins maxs ord st ds rf
      (resolve_data_defs fuel r dd path)
      (acts.map (fun a => resolve_action_references fuel r a (path ++ Action.name a ++ ['/'])))
      (nots.map (fun n => resolve_notification_references fuel r n (path ++ Notification.name n ++ ['/'])))
/-- `ReferenceResolver::resolve_choice_references` (`resolver.rs` lines
87-97): long cases extend the path by the case name, short cases keep the
choice's path. -/
def resolve_choice_references : Nat → ReferenceResolver → Choice → Str → Choice
  | 0, _, c, _ => c
  | fuel + 1, r, .mk name wh ifs dflt cfg mand st ds rf cases, path =>
    .mk name wh ifs dflt cfg mand st ds rf
      (cases.map (fun case =>
        match case with
        | .LongCase lc => .LongCase (resolve_long_case_references fuel r lc (path ++ LongCase.name lc ++ ['/']))
        | .ShortCase sc => .ShortCase (resolve_short_case_references fuel r sc path)))
/-- `ReferenceResolver::resolve_long_case_references` (`resolver.rs` lines
99-101). -/
def resolve_long_case_references : Nat → ReferenceResolver → LongCase → Str → LongCase
  | 0, _, lc, _ => lc
  | fuel + 1, r, .mk name wh ifs st ds rf dd, path =>
    .mk name wh ifs st ds rf (resolve_data_defs fuel r dd path)
/-- `ReferenceResolver::resolve_short_case_references` (`resolver.rs`
lines 103-119). -/
def resolve_short_case_references : Nat → ReferenceResolver → ShortCase → Str → ShortCase
  | 0, _, sc, _ => sc
  | fuel + 1, r, sc, path =>
    match sc with
    | .Container c => .Container (resolve_container_references fuel r c (path ++ Container.name c ++ ['/']))
    | .List l => .List (resolve_list_references fuel r l (path ++ ListNode.name l ++ ['/']))
    | .Choice c => .Choice (resolve_choice_references fuel r c (path ++ Choice.name c ++ ['/']))
    | _ => sc
/-- `ReferenceResolver::resolve_action_references` (`resolver.rs` lines
145-155). -/
def resolve_action_references : Nat → ReferenceResolver → Action → Str → Action
  | 0, _, a, _ => a
  | fuel + 1, r, .mk name ifs mu st ds rf inp outp, path =>
    .mk name ifs mu st ds rf
      (inp.map (fun i =>
        match i with
        | .mk imu idd => .mk imu (resolve_data_defs fuel r idd (path ++ "input/".toList))))
      (outp.map (fun o =>
        match o with
        | .mk omu odd => .mk omu (resolve_data_defs fuel r odd (path ++ "output/".toList))))
/-- `ReferenceResolver::resolve_notification_references` (`resolver.rs`
lines 169-171). -/
def resolve_notification_references : Nat → ReferenceResolver → Notification → Str → Notification
  | 0, _, n, _ => n
  | fuel + 1, r, .mk name ifs mu st ds rf dd, path =>
    .mk name ifs mu st ds rf (resolve_data_defs fuel r dd path)
end

/-- `ReferenceResolver::resolve_rpc_references` (`resolver.rs` lines
157-167); only reached from the top-level dispatch, so it sits outside
the mutual block and passes its fuel through unchanged. -/
def resolve_rpc_references (fuel : Nat) (r : ReferenceResolver) (rpc : Rpc) (path : Str) : Rpc :=
  match rpc with
  | .mk name ifs mu st ds rf inp outp =>
    .mk name ifs mu st ds rf
      (inp.map (fun i =>
        match i with
        | .mk imu idd => .mk imu (resolve_data_defs fuel r idd (path ++ "input/".toList))))
      (outp.map (fun o =>
        match o with
        | .mk omu odd => .mk omu (resolve_data_defs fuel r odd (path ++ "output/".toList))))

/-- `ReferenceResolver::resolve_schema_node_references` (`resolver.rs`
lines 33-39); note that the path is passed through unchanged for all
three variants. -/
def resolve_schema_node_references (fuel : Nat) (r : ReferenceResolver) (node : SchemaNode) (path : Str) : SchemaNode :=
  match node with
  | .DataDef data_def => .DataDef (resolve_data_def_references fuel r data_def path)
  | .Rpc rpc => .Rpc (resolve_rpc_references fuel r rpc path)
  | .Notification n => .Notification (resolve_notification_references fuel r n path)

/-- `ReferenceResolver::resolve_references` (`resolver.rs` lines 27-31):
resolve every body node at the root path `/`. -/
def resolve_references (fuel : Nat) (r : ReferenceResolver) (module : Module) : Module :=
  match module with
  | .mk name ver ns pfx meta revs body =>
    .mk name ver ns pfx meta revs
      (body.map (fun node => resolve_schema_node_references fuel r node ['/']))

/-
  Observation helpers used by the theorems below.
-/

/-- Constructor kind of a data definition. -/
inductive DataDefKind where
  | container
  | leaf
  | leafList
  | list
  | choice
  | anyData
  | anyxml
  | uses
deriving DecidableEq

/-- The head of a data definition: its constructor kind together with its
name (for a uses node, the referenced grouping name).  The head identifies
a direct child's identity in a sequence without looking at its nested
content. -/
def dataDefHead : DataDef → DataDefKind × Str
  | .Container c => (.container, Container.name c)
  | .Leaf l => (.leaf, l.name)
  | .LeafList l => (.leafList, l.name)
  | .List l => (.list, ListNode.name l)
  | .Choice c => (.choice, Choice.name c)
  | .AnyData a => (.anyData, a.name)
  | .Anyxml a => (.anyxml, a.name)
  | .Uses u => (.uses, Uses.grouping u)

/-- One splice step at the head of a sequence, as performed by the reverse
loop of `resolve_data_defs`: a uses node whose grouping is found becomes
that grouping's data_defs with the inserted window resolved; any other
node (including a uses whose lookup fails) stays as the singleton of
itself. -/
def expandUses (fuel : Nat) (r : ReferenceResolver) (path : Str) (d : DataDef) : List DataDef :=
  match d with
  | .Uses u =>
    match find_grouping r (Uses.grouping u) path with
    | some grouping =>
      (Grouping.data_defs grouping).map (fun x => resolve_data_def_references fuel r x path)
    | none => [d]
  | _ => [d]

/-- The complete effect of `resolve_data_defs` on one direct child: the
splice step followed by the final resolution pass over the sequence. -/
def expandResolve (fuel : Nat) (r : ReferenceResolver) (path : Str) (d : DataDef) : List DataDef :=
  (expandUses fuel r path d).map (fun x => resolve_data_def_references fuel r x path)

/-- The specified head sequence of one direct child after resolution
(spec section 8, order preservation): a `uses G` entry whose lookup finds
`G` contributes the heads of G's data_defs in G's internal order; every
other entry contributes its own head. -/
def spliceSpecHeads (r : ReferenceResolver) (path : Str) (d : DataDef) : List (DataDefKind × Str) :=
  match d with
  | .Uses u =>
    match find_grouping r (Uses.grouping u) path with
    | some grouping => (Grouping.data_defs grouping).map dataDefHead
    | none => [dataDefHead d]
  | _ => [dataDefHead d]

/-- The concatenation of a segment list, each segment followed by a
slash. -/
def segsBody (segs : List Str) : Str :=
  segs.foldr (fun s acc => s ++ ['/'] ++ acc) []

/-- The absolute path of a scope given by its segment list: `/` followed
by each segment with a trailing slash (spec section 3: absolute paths have
the form `/seg1/seg2/.../`). -/
def pathOfSegs (segs : List Str) : Str :=
  '/' :: segsBody segs

/-- Well-formed segment lists: every segment is nonempty and contains no
slash (segments are YANG identifiers). -/
def wfSegs (segs : List Str) : Prop :=
  ∀ s ∈ segs, s ≠ [] ∧ '/' ∉ s

/-- The candidate scope prefixes of a path, longest first, obtained by
repeatedly dropping the trailing segment down to `/` (spec section 4.4,
local grouping lookup). -/
def specCandidates (segs : List Str) : List Str :=
  ((List.range (segs.length + 1)).reverse).map (fun k => pathOfSegs (segs.take k))

/-
  Detector for leftover uses nodes anywhere in a tree, mirroring the
  subtrees the resolver can reach.
-/
mutual
/-- Does this data definition contain a `DataDef.Uses` in any subtree? -/
def containsUsesD : DataDef → Bool
  | .Uses _ => true
  | .Container c => containsUsesContainer c
  | .List l => containsUsesListNode l
  | .Choice c => containsUsesChoice c
  | _ => false
/-- Does any element of this sequence contain a uses node? -/
def containsUsesL : List DataDef → Bool
  | [] => false
  | d :: rest => containsUsesD d || containsUsesL rest
/-- Does this container contain a uses node? -/
def containsUsesContainer : Container → Bool
  | .mk _ _ _ _ _ _ _ _ _ dd acts nots =>
    containsUsesL dd || containsUsesActions acts || containsUsesNotifications nots
/-- Does this list statement contain a uses node? -/
def containsUsesListNode : ListNode → Bool
  | .mk _ _ _ _ _ _ _ _ _ _ _ _ _ dd acts nots =>
    containsUsesL dd || containsUsesActions acts || containsUsesNotifications nots
/-- Does this choice contain a uses node? -/
def containsUsesChoice : Choice → Bool
  | .mk _ _ _ _ _ _ _ _ _ cases => containsUsesCases cases
/-- Does any of these cases contain a uses node? -/
def containsUsesCases : List Case → Bool
  | [] => false
  | c :: rest => containsUsesCase c || containsUsesCases rest
/-- Does this case contain a uses node? -/
def containsUsesCase : Case → Bool
  | .LongCase (.mk _ _ _ _ _ _ dd) => containsUsesL dd
  | .ShortCase sc => containsUsesShortCase sc
/-- Does this short case contain a uses node? -/
def containsUsesShortCase : ShortCase → Bool
  | .Container c => containsUsesContainer c
  | .List l => containsUsesListNode l
  | .Choice c => containsUsesChoice c
  | _ => false
/-- Does any of these actions contain a uses node? -/
def containsUsesActions : List Action → Bool
  | [] => false
  | a :: rest => containsUsesAction a || containsUsesActions rest
/-- Does this action contain a uses node in its input or output? -/
def containsUsesAction : Action → Bool
  | .mk _ _ _ _ _ _ inp outp =>
    (match inp with
     | some (.mk _ dd) => containsUsesL dd
     | none => false)
    || (match outp with
        | some (.mk _ dd) => containsUsesL dd
        | none => false)
/-- Does any of these notifications contain a uses node? -/
def containsUsesNotifications : List Notification → Bool
  | [] => false
  | n :: rest => containsUsesNotification n || containsUsesNotifications rest
/-- Does this notification contain a uses node? -/
def containsUsesNotification : Notification → Bool
  | .mk _ _ _ _ _ _ dd => containsUsesL dd
end

/-- Does this schema node contain a uses node? -/
def containsUsesSchemaNode : SchemaNode → Bool
  | .DataDef d => containsUsesD d
  | .Rpc (.mk _ _ _ _ _ _ inp outp) =>
    (match inp with
     | some (.mk _ dd) => containsUsesL dd
     | none => false)
    || (match outp with
        | some (.mk _ dd) => containsUsesL dd
        | none => false)
  | .Notification n => containsUsesNotification n

/-- Does the module body contain a `DataDef.Uses` in any subtree? -/
def containsUsesModule (m : Module) : Bool :=
  m.body.any containsUsesSchemaNode

/-
  String-token walker models.  The pest grammar file (`yang.pest`) is not
  part of the sources, so the parse-tree shapes below are modelled from
  the spec, while the walker logic embeds the cited functions of
  `src/parser.rs`.
-/

/-- Modelled from the spec: the missing pest grammar's parse tree for
string tokens.  Spec section 6 lists the rules `string`,
`unquoted_string`, `single_quoted_string` and `double_quoted_string`; a
concatenated string literal (spec section 4.1) is a `string` node with
one child per part.  Each leaf carries the token text as matched,
including its quote characters. -/
inductive StrTree where
  | str (children : List StrTree) : StrTree
  | unquoted (text : Str) : StrTree
  | double_quoted (text : Str) : StrTree
  | single_quoted (text : Str) : StrTree

/-- `YangParser::parse_string` (`parser.rs` lines 1251-1270): read the
first child of the pair, recurse through a nested `string` rule, return
an unquoted token verbatim, and strip the first and last byte of a quoted
token (`s[1..s.len() - 1]`).  The `expect` on a childless pair and the
`unreachable` arm are rendered as `none`. -/
def parse_string : StrTree → Option Str
  | .str [] => none
  | .str (.str cs :: _) => parse_string (.str cs)
  | .str (.unquoted s :: _) => some s
  | .str (.double_quoted s :: _) => some ((s.drop 1).dropLast)
  | .str (.single_quoted s :: _) => some ((s.drop 1).dropLast)
  | _ => none

/-- Modelled from the spec: the missing grammar's `max_elements` child,
either an `integer` pair or a `string` pair, each carrying its token
text (`parse_max_elements` dispatches on the rule of this child). -/
inductive MaxElementsArg where
  | integer (text : Str) : MaxElementsArg
  | string (text : Str) : MaxElementsArg

/-- Numeric value of a digit string (most significant digit first). -/
def digitsVal (s : Str) : Nat :=
  s.foldl (fun acc c => acc * 10 + (c.toNat - '0'.toNat)) 0

/-- All-digit check plus evaluation: the core of Rust's `str::parse` for
integers, before the range check. -/
def parseDigits (s : Str) : Option Nat :=
  if s = [] then none
  else if s.all Char.isDigit then some (digitsVal s)
  else none

/-- Rust `str::parse::<i64>()`: an optional sign followed by decimal
digits, with the signed 64-bit range check; anything else is an error. -/
def parseI64 (s : Str) : Option Int :=
  match s with
  | [] => none
  | c :: rest =>
    if c = '+' then
      (parseDigits rest).bind (fun n => if n ≤ 2 ^ 63 - 1 then some (Int.ofNat n) else none)
    else if c = '-' then
      (parseDigits rest).bind (fun n => if n ≤ 2 ^ 63 then some (-(Int.ofNat n : Int)) else none)
    else
      (parseDigits (c :: rest)).bind (fun n => if n ≤ 2 ^ 63 - 1 then some (Int.ofNat n) else none)

/-- `YangParser::parse_integer` (`parser.rs` lines 1241-1249) applied to
the integer token's text; the `expect` on a failed parse is rendered as
`none`. -/
def parse_integer (text : Str) : Option Int :=
  parseI64 text

/-- `YangParser::parse_max_elements` (`parser.rs` lines 1167-1178): an
`integer` child parses as a signed 64-bit value, and a `string` child
yields `Unbounded` without inspecting its text. -/
def parse_max_elements : MaxElementsArg → Option MaxElements
  | .integer text => (parse_integer text).map MaxElements.Value
  | .string _ => some MaxElements.Unbounded

/-- Modelled from the spec: a well-formed `max-elements` argument is
either the literal token `unbounded` or a non-negative integer that fits
the declared 64-bit signed representation (spec sections 4.1 and 6; the
grammar that would enforce this is not part of the sources). -/
def wfMaxElementsArg : MaxElementsArg → Prop
  | .string text => text = "unbounded".toList
  | .integer text => text ≠ [] ∧ (∀ c ∈ text, c.isDigit) ∧ digitsVal text ≤ 2 ^ 63 - 1

/-
  Submodule walk model for the belongs-to prefix stripping.
-/

/-- Modelled from the spec: the statement sequence of a submodule as seen
by `parse_submodule`, reduced to the statements relevant to uses-argument
handling: the belongs-to statement (with its module name and prefix), a
body data definition that is a uses statement (with its argument text),
and any other statement. -/
inductive SubmoduleStmt where
  | belongs_to (module : Str) (pfx : Str) : SubmoduleStmt
  | body_uses (arg : Str) : SubmoduleStmt
  | other : SubmoduleStmt

/-- The `Rule::string` arm of `YangParser::parse_uses` (`parser.rs` lines
460-475): when a belongs-to prefix is recorded and the argument starts
with that prefix followed by a colon, the prefix and colon are removed;
otherwise the argument is stored verbatim. -/
def parse_uses_grouping (current_belongs_to_pfx : Option Str) (grouping_name : Str) : Str :=
  match current_belongs_to_pfx with
  | some pfx =>
    let prefixed_name := pfx ++ [':']
    if prefixed_name.isPrefixOf grouping_name then grouping_name.drop prefixed_name.length
    else grouping_name
  | none => grouping_name

/-- Is this submodule statement the belongs-to statement? -/
def SubmoduleStmt.isBelongsTo : SubmoduleStmt → Bool
  | .belongs_to _ _ => true
  | _ => false

/-- The uses argument carried by a submodule statement, when it is a
body uses statement. -/
def SubmoduleStmt.usesArg : SubmoduleStmt → Option Str
  | .body_uses arg => some arg
  | _ => none

/-- The specified storage of a uses argument under a recorded belongs-to
prefix (spec section 4.1): an argument beginning with the prefix
followed by a colon is stored with the prefix and the colon removed,
every other argument verbatim. -/
def stripSpec (pfx arg : Str) : Str :=
  if (pfx ++ [':']).isPrefixOf arg then arg.drop (pfx.length + 1) else arg

/-- The walker state relevant to uses-argument handling: the recorded
belongs-to prefix (`YangParser.current_belongs_to_prefix`) and the uses
grouping names stored so far, in source order. -/
structure SubWalkState where
  current_belongs_to_pfx : Option Str
  uses_groupings : List Str

/-- One statement of the `parse_submodule` child loop (`parser.rs` lines
155-178): a belongs-to statement records its prefix (line 162); a uses
statement in the body stores its argument through `parse_uses`; other
statements leave this state unchanged. -/
def parse_submodule_step (st : SubWalkState) : SubmoduleStmt → SubWalkState
  | .belongs_to _ pfx => ⟨some pfx, st.uses_groupings⟩
  | .body_uses arg =>
    ⟨st.current_belongs_to_pfx,
     st.uses_groupings ++ [parse_uses_grouping st.current_belongs_to_pfx arg]⟩
  | .other => st

/-- `YangParser::parse_submodule` (`parser.rs` lines 152-184) restricted
to the uses-argument bookkeeping: fold the child statements and then
clear the belongs-to prefix (line 181). -/
def parse_submodule_walk (children : List SubmoduleStmt) (st : SubWalkState) : SubWalkState :=
  let final := children.foldl parse_submodule_step st
  ⟨none, final.uses_groupings⟩

/-
  Concrete fixtures for the evaluation theorems: a module whose container
  `c` holds `uses g1`, where grouping `g1`'s body is `uses g2` and
  grouping `g2`'s body is a single leaf.  All lookups succeed, so per the
  spec both uses should be fully expanded.
-/

/-- Fixture: the leaf `x` of grouping `g2`. -/
def exLeafX : Leaf :=
  ⟨"x".toList, none, [], .mk "string".toList none, none, [], none, none, none, none, none, none⟩

/-- Fixture: grouping `g2` whose body is `leaf x`. -/
def exGroupingG2 : Grouping :=
  .mk "g2".toList none none none [.Leaf exLeafX] [] []

/-- Fixture: the uses node referencing `g2`. -/
def exUsesG2 : Uses := .mk "g2".toList none [] none none none [] []

/-- Fixture: grouping `g1` whose body is `uses g2`. -/
def exGroupingG1 : Grouping :=
  .mk "g1".toList none none none [.Uses exUsesG2] [] []

/-- Fixture: the uses node referencing `g1`. -/
def exUsesG1 : Uses := .mk "g1".toList none [] none none none [] []

/-- Fixture: reference tables holding `g1` and `g2` at module scope. -/
def exRefNodes : ReferenceNodes :=
  ⟨[], [], [], [], [("/g1".toList, exGroupingG1), ("/g2".toList, exGroupingG2)], [], []⟩

/-- Fixture: a resolver with the local tables above and no imports. -/
def exResolver : ReferenceResolver := ⟨exRefNodes, [], []⟩

/-- Fixture: container `c` whose body is `uses g1`. -/
def exContainerC : Container :=
  .mk "c".toList none [] [] none none none none none [.Uses exUsesG1] [] []

/-- Fixture: a module whose body is the container `c`. -/
def exModule : Module :=
  ⟨"m".toList, none, [], [], ⟨none, none, none, none⟩, [], [.DataDef (.Container exContainerC)]⟩

/-- The body of one reverse-loop iteration of `resolve_data_defs`
(`resolver.rs` lines 264-286), named standalone so the proofs can speak
about it; `resolve_data_defs_succ` states that it is definitionally the
loop body of the embedding above. -/
def splice_step (fuel : Nat) (r : ReferenceResolver) (path : Str) (acc : List DataDef) (p : Nat × Str) : List DataDef :=
  match find_grouping r p.2 path with
  | some grouping =>
    let grouping_data_defs := Grouping.data_defs grouping
    let removed := acc.eraseIdx p.1
    let inserted := removed.take p.1 ++ grouping_data_defs ++ removed.drop p.1
    inserted.take p.1
      ++ ((inserted.drop p.1).take grouping_data_defs.length).map
          (fun d => resolve_data_def_references fuel r d path)
      ++ inserted.drop (p.1 + grouping_data_defs.length)
  | none => acc

/-- The non-recursive attributes of a container: every field except
`data_defs`, `actions` and `notifications`. -/
def Container.attrs : Container →
    Str × Option When × List Str × List Must × Option Str × Option Bool
      × Option Status × Option Str × Option Str
  | .mk n wh ifs mu pres cfg st ds rf _ _ _ => (n, wh, ifs, mu, pres, cfg, st, ds, rf)

/-- The non-recursive attributes of a list statement. -/
def ListNode.attrs : ListNode →
    Str × Option When × List Str × List Must × Option Str × List Str
      × Option Bool × Option Int × Option MaxElements × Option OrderedBy
      × Option Status × Option Str × Option Str
  | .mk n wh ifs mu key uniq cfg mins maxs ord st ds rf _ _ _ =>
    (n, wh, ifs, mu, key, uniq, cfg, mins, maxs, ord, st, ds, rf)

/-- The non-recursive attributes of a choice: every field except `cases`. -/
def Choice.attrs : Choice →
    Str × Option When × List Str × Option Str × Option Bool × Option Bool
      × Option Status × Option Str × Option Str
  | .mk n wh ifs dflt cfg mand st ds rf _ => (n, wh, ifs, dflt, cfg, mand, st, ds, rf)

/-- The non-recursive attributes of a long case: every field except
`data_defs`. -/
def LongCase.attrs : LongCase → Str × Option When × List Str × Option Status × Option Str × Option Str
  | .mk n wh ifs st ds rf _ => (n, wh, ifs, st, ds, rf)

/-- The non-recursive attributes of an rpc: every field except `input`
and `output`. -/
def Rpc.attrs : Rpc → Str × List Str × List Must × Option Status × Option Str × Option Str
  | .mk n ifs mu st ds rf _ _ => (n, ifs, mu, st, ds, rf)

/-- The non-recursive attributes of an action: every field except `input`
and `output`. -/
def Action.attrs : Action → Str × List Str × List Must × Option Status × Option Str × Option Str
  | .mk n ifs mu st ds rf _ _ => (n, ifs, mu, st, ds, rf)

/-- The non-recursive attributes of a notification: every field except
`data_defs`. -/
def Notification.attrs : Notification → Str × List Str × List Must × Option Status × Option Str × Option Str
  | .mk n ifs mu st ds rf _ => (n, ifs, mu, st, ds, rf)

/-- The input of an action. -/
def Action.input : Action → Option Input
  | .mk _ _ _ _ _ _ inp _ => inp

/-- The output of an action. -/
def Action.output : Action → Option Output
  | .mk _ _ _ _ _ _ _ outp => outp

/-- The input of an rpc. -/
def Rpc.input : Rpc → Option Input
  | .mk _ _ _ _ _ _ inp _ => inp

/-- The output of an rpc. -/
def Rpc.output : Rpc → Option Output
  | .mk _ _ _ _ _ _ _ outp => outp

/-- The must list of an input block. -/
def Input.must : Input → List Must
  | .mk mu _ => mu

/-- The must list of an output block. -/
def Output.must : Output → List Must
  | .mk mu _ => mu

/-- Fixture for cross-module lookup: grouping `gb` (a single leaf `v`) at
the top level of an imported module `modb` known under the importer's
prefix `bp`. -/
def exGroupingGb : Grouping :=
  .mk "gb".toList none none none
    [.Leaf ⟨"v".toList, none, [], .mk "string".toList none, none, [], none, none, none, none, none, none⟩]
    [] []

/-- Fixture: the reference tables of the imported module `modb`. -/
def exRefNodesB : ReferenceNodes :=
  ⟨[], [], [], [], [("/gb".toList, exGroupingGb)], [], []⟩

/-- Fixture: a resolver with empty local tables, one imported module
`modb`, and the prefix binding `bp -> modb`. -/
def exImportResolver : ReferenceResolver :=
  ⟨⟨[], [], [], [], [], [], []⟩,
   [("modb".toList, exRefNodesB)],
   [("bp".toList, "modb".toList)]⟩

/-- Fixture for lexical shadowing: the grouping `g` defined inside
container `c` (its body is `leaf inner`). -/
def exGroupingInner : Grouping :=
  .mk "g".toList none none none
    [.Leaf ⟨"inner".toList, none, [], .mk "string".toList none, none, [], none, none, none, none, none, none⟩]
    [] []

/-- Fixture for lexical shadowing: the grouping `g` defined at module
scope (its body is `leaf outer`). -/
def exGroupingOuter : Grouping :=
  .mk "g".toList none none none
    [.Leaf ⟨"outer".toList, none, [], .mk "string".toList none, none, [], none, none, none, none, none, none⟩]
    [] []

/-- Fixture: a resolver whose local groupings table holds `g` both under
`/c/g` (inner) and `/g` (outer). -/
def exShadowResolver : ReferenceResolver :=
  ⟨⟨[], [], [], [], [("/c/g".toList, exGroupingInner), ("/g".toList, exGroupingOuter)], [], []⟩, [], []⟩

/-- Resolution preserves a container's name. -/
theorem resolve_container_name (fuel : Nat) (r : ReferenceResolver) (c : Container) (path : Str) :
    Container.name (resolve_container_references fuel r c path) = Container.name c := by
  cases fuel with
  | zero => rfl
  | succ fuel => cases c with
    | mk name wh ifs mu pres cfg st ds rf dd acts nots => rfl

/-- Resolution preserves a list statement's name. -/
theorem resolve_list_name (fuel : Nat) (r : ReferenceResolver) (l : ListNode) (path : Str) :
    ListNode.name (resolve_list_references fuel r l path) = ListNode.name l := by
  cases fuel with
  | zero => rfl
  | succ fuel => cases l with
    | mk name wh ifs mu key uniq cfg mins maxs ord st ds rf dd acts nots => rfl

/-- Resolution preserves a choice's name. -/
theorem resolve_choice_name (fuel : Nat) (r : ReferenceResolver) (c : Choice) (path : Str) :
    Choice.name (resolve_choice_references fuel r c path) = Choice.name c := by
  cases fuel with
  | zero => rfl
  | succ fuel => cases c with
    | mk name wh ifs dflt cfg mand st ds rf cases => rfl

/-- Resolving a single data definition preserves its head (constructor
kind and name): only nested content can change. -/
theorem dataDefHead_resolve (fuel : Nat) (r : ReferenceResolver) (d : DataDef) (path : Str) :
    dataDefHead (resolve_data_def_references fuel r d path) = dataDefHead d := by
  cases fuel with
  | zero => rfl
  | succ fuel =>
    cases d <;>
      simp [resolve_data_def_references, dataDefHead,
        resolve_container_name, resolve_list_name, resolve_choice_name]

/-- `resolve_data_def_references` never touches a uses node (`resolver.rs`
line 55, the catch-all arm). -/
theorem resolve_uses_unchanged (fuel : Nat) (r : ReferenceResolver) (u : Uses) (path : Str) :
    resolve_data_def_references fuel r (.Uses u) path = .Uses u := by
  cases fuel <;> rfl

/-- Unfolding of `resolve_data_defs` at positive fuel in terms of
`splice_step`: record the uses indices, fold the splice step over them in
reverse, then resolve every remaining element. -/
theorem resolve_data_defs_succ (fuel : Nat) (r : ReferenceResolver) (dd : List DataDef) (path : Str) :
    resolve_data_defs (fuel + 1) r dd path =
      ((collectUses 0 dd).reverse.foldl (splice_step fuel r path) dd).map
        (fun d => resolve_data_def_references fuel r d path) := rfl

/-- The reverse fold of the splice loop as a right fold over the recorded
indices in source order. -/
theorem resolve_data_defs_foldr (fuel : Nat) (r : ReferenceResolver) (dd : List DataDef) (path : Str) :
    resolve_data_defs (fuel + 1) r dd path =
      ((collectUses 0 dd).foldr (fun p acc => splice_step fuel r path acc p) dd).map
        (fun d => resolve_data_def_references fuel r d path) := by
  rw [resolve_data_defs_succ, List.foldl_reverse]

/-- A splice step at index `i + 1` commutes with an untouched head
element: all positions below the spliced index are left alone. -/
theorem splice_step_cons (fuel : Nat) (r : ReferenceResolver) (path : Str)
    (d : DataDef) (acc : List DataDef) (i : Nat) (n : Str) :
    splice_step fuel r path (d :: acc) (i + 1, n) = d :: splice_step fuel r path acc (i, n) := by
  unfold splice_step
  cases hf : find_grouping r n path with
  | none => rfl
  | some g =>
    simp only [List.eraseIdx_cons_succ, List.take_succ_cons, List.drop_succ_cons,
      List.cons_append, Nat.add_right_comm _ 1]

/-- Merging two index shifts into one. -/
theorem collect_shift_shift (l : List (Nat × Str)) (j k : Nat) :
    (l.map (fun p => (p.1 + j, p.2))).map (fun p => (p.1 + k, p.2))
      = l.map (fun p => (p.1 + (j + k), p.2)) := by
  rw [List.map_map]
  apply List.map_congr_left
  intro p _
  simp only [Function.comp, Prod.mk.injEq]
  exact ⟨by omega, trivial⟩

/-- Collecting uses indices from a later start index shifts every
recorded position. -/
theorem collectUses_shift (l : List DataDef) : ∀ i : Nat,
    collectUses i l = (collectUses 0 l).map (fun p => (p.1 + i, p.2)) := by
  induction l with
  | nil => intro i; rfl
  | cons d rest ih =>
    intro i
    cases d <;>
      simp only [collectUses, List.map_cons, ih (i + 1), ih 1,
        collect_shift_shift, Nat.zero_add, Nat.add_comm 1 i]

/-- Folding splice steps whose indices are all shifted by one over a
sequence with one more head element leaves that head alone. -/
theorem splice_foldr_shift (fuel : Nat) (r : ReferenceResolver) (path : Str)
    (pairs : List (Nat × Str)) (d : DataDef) (acc : List DataDef) :
    (pairs.map (fun p => (p.1 + 1, p.2))).foldr
        (fun p a => splice_step fuel r path a p) (d :: acc)
      = d :: pairs.foldr (fun p a => splice_step fuel r path a p) acc := by
  induction pairs with
  | nil => rfl
  | cons q qs ih =>
    simp only [List.map_cons, List.foldr_cons, ih]
    exact splice_step_cons fuel r path d _ q.1 q.2

/-- The splice loop of `resolve_data_defs` expands each recorded uses
entry in place: its net effect on the sequence is the per-element
`expandUses` expansion. -/
theorem splice_foldr_flatMap (fuel : Nat) (r : ReferenceResolver) (path : Str) (l : List DataDef) :
    (collectUses 0 l).foldr (fun p acc => splice_step fuel r path acc p) l
      = l.flatMap (expandUses fuel r path) := by
  induction l with
  | nil => rfl
  | cons d rest ih =>
    cases d with
    | Uses u =>
      have hc : collectUses 0 (DataDef.Uses u :: rest)
          = (0, Uses.grouping u) :: (collectUses 0 rest).map (fun p => (p.1 + 1, p.2)) := by
        simp [collectUses, collectUses_shift rest 1]
      rw [hc, List.foldr_cons, splice_foldr_shift, ih, List.flatMap_cons]
      cases hf : find_grouping r (Uses.grouping u) path with
      | none => simp [splice_step, expandUses, hf]
      | some g =>
        simp only [splice_step, expandUses, hf, List.eraseIdx_cons_zero, List.take_zero,
          List.drop_zero, List.nil_append, Nat.zero_add]
        rw [List.take_left, List.drop_left]
    | Container c =>
      rw [show collectUses 0 (DataDef.Container c :: rest)
            = (collectUses 0 rest).map (fun p => (p.1 + 1, p.2)) from by
          simp [collectUses, collectUses_shift rest 1],
        splice_foldr_shift, ih, List.flatMap_cons]
      simp [expandUses]
    | Leaf l =>
      rw [show collectUses 0 (DataDef.Leaf l :: rest)
            = (collectUses 0 rest).map (fun p => (p.1 + 1, p.2)) from by
          simp [collectUses, collectUses_shift rest 1],
        splice_foldr_shift, ih, List.flatMap_cons]
      simp [expandUses]
    | LeafList l =>
      rw [show collectUses 0 (DataDef.LeafList l :: rest)
            = (collectUses 0 rest).map (fun p => (p.1 + 1, p.2)) from by
          simp [collectUses, collectUses_shift rest 1],
        splice_foldr_shift, ih, List.flatMap_cons]
      simp [expandUses]
    | List l =>
      rw [show collectUses 0 (DataDef.List l :: rest)
            = (collectUses 0 rest).map (fun p => (p.1 + 1, p.2)) from by
          simp [collectUses, collectUses_shift rest 1],
        splice_foldr_shift, ih, List.flatMap_cons]
      simp [expandUses]
    | Choice c =>
      rw [show collectUses 0 (DataDef.Choice c :: rest)
            = (collectUses 0 rest).map (fun p => (p.1 + 1, p.2)) from by
          simp [collectUses, collectUses_shift rest 1],
        splice_foldr_shift, ih, List.flatMap_cons]
      simp [expandUses]
    | AnyData a =>
      rw [show collectUses 0 (DataDef.AnyData a :: rest)
            = (collectUses 0 rest).map (fun p => (p.1 + 1, p.2)) from by
          simp [collectUses, collectUses_shift rest 1],
        splice_foldr_shift, ih, List.flatMap_cons]
      simp [expandUses]
    | Anyxml a =>
      rw [show collectUses 0 (DataDef.Anyxml a :: rest)
            = (collectUses 0 rest).map (fun p => (p.1 + 1, p.2)) from by
          simp [collectUses, collectUses_shift rest 1],
        splice_foldr_shift, ih, List.flatMap_cons]
      simp [expandUses]

/-- `resolve_data_defs` at positive fuel is the in-place expansion of
every direct-child uses entry followed by the final resolution pass. -/
theorem resolve_data_defs_eq_expandUses (fuel : Nat) (r : ReferenceResolver) (dd : List DataDef) (path : Str) :
    resolve_data_defs (fuel + 1) r dd path =
      (dd.flatMap (expandUses fuel r path)).map
        (fun d => resolve_data_def_references fuel r d path) := by
  rw [resolve_data_defs_foldr, splice_foldr_flatMap]

/-- `resolve_data_defs` at positive fuel acts independently on each direct
child: the sequence is the concatenation of each child's expansion. -/
theorem resolve_data_defs_eq_expandResolve (fuel : Nat) (r : ReferenceResolver) (dd : List DataDef) (path : Str) :
    resolve_data_defs (fuel + 1) r dd path = dd.flatMap (expandResolve fuel r path) := by
  rw [resolve_data_defs_eq_expandUses, List.map_flatMap]
  rfl

/-- The head sequence of one child's full expansion is the specified head
sequence: resolution inside an element never changes heads. -/
theorem expandResolve_heads (fuel : Nat) (r : ReferenceResolver) (path : Str) (d : DataDef) :
    (expandResolve fuel r path d).map dataDefHead = spliceSpecHeads r path d := by
  cases d with
  | Uses u =>
    cases hf : find_grouping r (Uses.grouping u) path with
    | none => simp [expandResolve, expandUses, spliceSpecHeads, hf, dataDefHead_resolve]
    | some g =>
      simp only [expandResolve, expandUses, spliceSpecHeads, hf, List.map_map]
      apply List.map_congr_left
      intro x _
      simp [Function.comp, dataDefHead_resolve]
  | Container c => simp [expandResolve, expandUses, spliceSpecHeads, dataDefHead_resolve]
  | Leaf l => simp [expandResolve, expandUses, spliceSpecHeads, dataDefHead_resolve]
  | LeafList l => simp [expandResolve, expandUses, spliceSpecHeads, dataDefHead_resolve]
  | List l => simp [expandResolve, expandUses, spliceSpecHeads, dataDefHead_resolve]
  | Choice c => simp [expandResolve, expandUses, spliceSpecHeads, dataDefHead_resolve]
  | AnyData a => simp [expandResolve, expandUses, spliceSpecHeads, dataDefHead_resolve]
  | Anyxml a => simp [expandResolve, expandUses, spliceSpecHeads, dataDefHead_resolve]

/-- C2: for every sequence of direct data children whose direct-child
uses entries all name groupings that lookup finds, the head sequence
(constructor kinds and names, in order) of the resolved sequence equals
the source-order sequence with each `uses G` entry replaced in place by
the heads of G's data_defs in G's internal order, all other entries
keeping their heads in their original relative order.  (The proof shows
the head-level equation holds even without the hypothesis, because a
uses entry whose lookup fails also keeps its own head in place.)  Nested
content of the children is recursively resolved, per the splice
algorithm's step 2. -/
theorem uses_expansion_preserves_order (fuel : Nat) (r : ReferenceResolver)
    (dd : List DataDef) (path : Str)
    (h : ∀ p ∈ collectUses 0 dd, (find_grouping r p.2 path).isSome = true) :
    (resolve_data_defs (fuel + 1) r dd path).map dataDefHead
      = dd.flatMap (spliceSpecHeads r path) := by
  rw [resolve_data_defs_eq_expandResolve, List.map_flatMap]
  simp only [expandResolve_heads]

/-- Witness for `uses_expansion_preserves_order`: in a sequence
`[uses g1, leaf x]` under path `/c/` with `g1` and `g2` defined at module
scope, the lookup hypothesis holds, and the resolved heads are g1's body
heads followed by the leaf. -/
theorem uses_expansion_preserves_order_witness :
    (∀ p ∈ collectUses 0 [DataDef.Uses exUsesG1, DataDef.Leaf exLeafX],
        (find_grouping exResolver p.2 "/c/".toList).isSome = true)
    ∧ (resolve_data_defs 3 exResolver [DataDef.Uses exUsesG1, DataDef.Leaf exLeafX] "/c/".toList).map dataDefHead
        = [DataDef.Uses exUsesG1, DataDef.Leaf exLeafX].flatMap (spliceSpecHeads exResolver "/c/".toList) :=
  ⟨by decide, uses_expansion_preserves_order 2 exResolver _ _ (by decide)⟩

/-- C5: a uses entry whose grouping lookup fails is left in place at its
position while the rest of the sequence is still resolved; the resolver
is a total function, so no error is possible. -/
theorem unresolved_uses_left_in_place (fuel : Nat) (r : ReferenceResolver) (path : Str)
    (u : Uses) (pre post : List DataDef)
    (h : find_grouping r (Uses.grouping u) path = none) :
    resolve_data_defs (fuel + 1) r (pre ++ DataDef.Uses u :: post) path
      = pre.flatMap (expandResolve fuel r path)
        ++ DataDef.Uses u :: post.flatMap (expandResolve fuel r path) := by
  rw [resolve_data_defs_eq_expandResolve, List.flatMap_append, List.flatMap_cons]
  have hm : expandResolve fuel r path (DataDef.Uses u) = [DataDef.Uses u] := by
    unfold expandResolve expandUses
    simp [h, resolve_uses_unchanged]
  rw [hm]
  simp

/-- Witness for `unresolved_uses_left_in_place`: a `uses missing` between
a leaf and a resolvable `uses g2` stays in position while its neighbours
are processed. -/
theorem unresolved_uses_left_in_place_witness :
    find_grouping exResolver "missing".toList "/c/".toList = none
    ∧ resolve_data_defs 4 exResolver
        [DataDef.Leaf exLeafX, DataDef.Uses (.mk "missing".toList none [] none none none [] []),
         DataDef.Uses exUsesG2] "/c/".toList
      = [DataDef.Leaf exLeafX].flatMap (expandResolve 3 exResolver "/c/".toList)
        ++ DataDef.Uses (.mk "missing".toList none [] none none none [] [])
          :: [DataDef.Uses exUsesG2].flatMap (expandResolve 3 exResolver "/c/".toList) :=
  ⟨rfl,
   unresolved_uses_left_in_place 3 exResolver "/c/".toList
     (.mk "missing".toList none [] none none none [] [])
     [DataDef.Leaf exLeafX] [DataDef.Uses exUsesG2] rfl⟩

/-- C1 (code bug): in `exModule` every grouping lookup succeeds (`g1`
from path `/c/` and `g2` from path `/c/`), yet the resolved module still
contains a `DataDef.Uses`: the recursion into freshly spliced content
(`resolver.rs` lines 279-284) calls `resolve_data_def_references`, which
ignores `Uses` nodes, so the `uses g2` inserted by expanding `g1` is
never expanded even though it is resolvable. -/
theorem resolved_module_retains_uses :
    (find_grouping exResolver "g1".toList "/c/".toList).isSome = true
    ∧ (find_grouping exResolver "g2".toList "/c/".toList).isSome = true
    ∧ containsUsesModule (resolve_references 10 exResolver exModule) = true :=
  ⟨rfl, rfl, rfl⟩

/-- C7 (code bug): resolving `exModule` twice is not the same as
resolving it once — the second run expands the `uses g2` node that the
first run left behind, so resolution is not idempotent. -/
theorem resolve_references_not_idempotent :
    resolve_references 10 exResolver (resolve_references 10 exResolver exModule)
      ≠ resolve_references 10 exResolver exModule := by
  intro hEq
  have h2 := congrArg containsUsesModule hEq
  rw [show containsUsesModule
        (resolve_references 10 exResolver (resolve_references 10 exResolver exModule)) = false from rfl,
    show containsUsesModule (resolve_references 10 exResolver exModule) = true from rfl] at h2
  exact Bool.noConfusion h2

/-- C4: a grouping reference of the form `prefix:name` resolves through
`prefix_to_module` and `imported_modules` to a lookup of exactly the key
`/name` in the imported module's groupings table (so an unmapped prefix,
an absent module, or a grouping below the imported module's top level all
yield nothing), and the result does not depend on the reference site's
path — no hierarchical climb is attempted in the imported module. -/
theorem find_grouping_prefixed (r : ReferenceResolver) (grouping_name path : Str)
    (pfx rest : Str) (h : splitColon grouping_name = some (pfx, rest)) :
    (find_grouping r grouping_name path
      = (List.lookup pfx r.prefix_to_module).bind (fun module_name =>
          (List.lookup module_name r.imported_modules).bind (fun ref_nodes =>
            List.lookup ('/' :: rest) ref_nodes.groupings)))
    ∧ (∀ path2 : Str, find_grouping r grouping_name path2 = find_grouping r grouping_name path) := by
  constructor
  · unfold find_grouping
    rw [h]
    cases h1 : List.lookup pfx r.prefix_to_module with
    | none => simp [h1]
    | some module_name =>
      cases h2 : List.lookup module_name r.imported_modules with
      | none => simp [h1, h2]
      | some ref_nodes => simp [h1, h2]
  · intro path2
    unfold find_grouping
    rw [h]

/-- Witness for `find_grouping_prefixed`: `bp:gb` under the binding
`bp -> modb` resolves to the top-level `/gb` of `modb`'s tables,
independently of the reference site's path. -/
theorem find_grouping_prefixed_witness :
    (find_grouping exImportResolver "bp:gb".toList "/c/d/".toList
      = (List.lookup "bp".toList exImportResolver.prefix_to_module).bind (fun module_name =>
          (List.lookup module_name exImportResolver.imported_modules).bind (fun ref_nodes =>
            List.lookup ('/' :: "gb".toList) ref_nodes.groupings)))
    ∧ (∀ path2 : Str, find_grouping exImportResolver "bp:gb".toList path2
        = find_grouping exImportResolver "bp:gb".toList "/c/d/".toList) :=
  find_grouping_prefixed exImportResolver "bp:gb".toList "/c/d/".toList
    "bp".toList "gb".toList (by decide)

/-- C10: resolution only rewrites data-definition sequences.  The module's
name, yang_version, namespace, prefix, meta and revisions are unchanged
and its body keeps its length; containers, lists, choices, long cases,
rpcs, actions and notifications keep all their non-recursive attributes;
input and output blocks keep their must lists and their presence; and
leaf, leaf-list, anydata, anyxml and uses nodes are left entirely
untouched by the per-node resolution step.  The reference tables are
inputs of the pure resolution functions and are never part of the
output. -/
theorem resolve_references_frame :
    (∀ (fuel : Nat) (r : ReferenceResolver) (m : Module),
        (resolve_references fuel r m).name = m.name
        ∧ (resolve_references fuel r m).yang_version = m.yang_version
        ∧ (resolve_references fuel r m).namespace_uri = m.namespace_uri
        ∧ (resolve_references fuel r m).pfx = m.pfx
        ∧ (resolve_references fuel r m).meta = m.meta
        ∧ (resolve_references fuel r m).revisions = m.revisions
        ∧ (resolve_references fuel r m).body.length = m.body.length)
    ∧ (∀ (fuel : Nat) (r : ReferenceResolver) (c : Container) (path : Str),
        Container.attrs (resolve_container_references fuel r c path) = Container.attrs c)
    ∧ (∀ (fuel : Nat) (r : ReferenceResolver) (l : ListNode) (path : Str),
        ListNode.attrs (resolve_list_references fuel r l path) = ListNode.attrs l)
    ∧ (∀ (fuel : Nat) (r : ReferenceResolver) (c : Choice) (path : Str),
        Choice.attrs (resolve_choice_references fuel r c path) = Choice.attrs c)
    ∧ (∀ (fuel : Nat) (r : ReferenceResolver) (lc : LongCase) (path : Str),
        LongCase.attrs (resolve_long_case_references fuel r lc path) = LongCase.attrs lc)
    ∧ (∀ (fuel : Nat) (r : ReferenceResolver) (rpc : Rpc) (path : Str),
        Rpc.attrs (resolve_rpc_references fuel r rpc path) = Rpc.attrs rpc
        ∧ ((resolve_rpc_references fuel r rpc path).input).map Input.must
            = (Rpc.input rpc).map Input.must
        ∧ ((resolve_rpc_references fuel r rpc path).output).map Output.must
            = (Rpc.output rpc).map Output.must)
    ∧ (∀ (fuel : Nat) (r : ReferenceResolver) (a : Action) (path : Str),
        Action.attrs (resolve_action_references fuel r a path) = Action.attrs a
        ∧ ((resolve_action_references fuel r a path).input).map Input.must
            = (Action.input a).map Input.must
        ∧ ((resolve_action_references fuel r a path).output).map Output.must
            = (Action.output a).map Output.must)
    ∧ (∀ (fuel : Nat) (r : ReferenceResolver) (n : Notification) (path : Str),
        Notification.attrs (resolve_notification_references fuel r n path) = Notification.attrs n)
    ∧ (∀ (fuel : Nat) (r : ReferenceResolver) (l : Leaf) (path : Str),
        resolve_data_def_references fuel r (.Leaf l) path = .Leaf l)
    ∧ (∀ (fuel : Nat) (r : ReferenceResolver) (l : LeafList) (path : Str),
        resolve_data_def_references fuel r (.LeafList l) path = .LeafList l)
    ∧ (∀ (fuel : Nat) (r : ReferenceResolver) (a : Anydata) (path : Str),
        resolve_data_def_references fuel r (.AnyData a) path = .AnyData a)
    ∧ (∀ (fuel : Nat) (r : ReferenceResolver) (a : Anyxml) (path : Str),
        resolve_data_def_references fuel r (.Anyxml a) path = .Anyxml a)
    ∧ (∀ (fuel : Nat) (r : ReferenceResolver) (u : Uses) (path : Str),
        resolve_data_def_references fuel r (.Uses u) path = .Uses u) := by
  refine ⟨?_, ?_, ?_, ?_, ?_, ?_, ?_, ?_, ?_, ?_, ?_, ?_, ?_⟩
  · intro fuel r m
    cases m with
    | mk name ver ns pfx meta revs body =>
      refine ⟨rfl, rfl, rfl, rfl, rfl, rfl, ?_⟩
      simp [resolve_references]
  · intro fuel r c path
    cases fuel with
    | zero => rfl
    | succ fuel => cases c with
      | mk a b c' d e f g h i j k l => rfl
  · intro fuel r l path
    cases fuel with
    | zero => rfl
    | succ fuel => cases l with
      | mk a b c' d e f g h i j k l' m n o p => rfl
  · intro fuel r c path
    cases fuel with
    | zero => rfl
    | succ fuel => cases c with
      | mk a b c' d e f g h i j => rfl
  · intro fuel r lc path
    cases fuel with
    | zero => rfl
    | succ fuel => cases lc with
      | mk a b c' d e f g => rfl
  · intro fuel r rpc path
    cases rpc with
    | mk a b c' d e f inp outp =>
      refine ⟨rfl, ?_, ?_⟩
      · cases inp with
        | none => rfl
        | some i => cases i with | mk imu idd => rfl
      · cases outp with
        | none => rfl
        | some o => cases o with | mk omu odd => rfl
  · intro fuel r a path
    cases fuel with
    | zero =>
      cases a with
      | mk a' b c' d e f inp outp => exact ⟨rfl, rfl, rfl⟩
    | succ fuel =>
      cases a with
      | mk a' b c' d e f inp outp =>
        refine ⟨rfl, ?_, ?_⟩
        · cases inp with
          | none => rfl
          | some i => cases i with | mk imu idd => rfl
        · cases outp with
          | none => rfl
          | some o => cases o with | mk omu odd => rfl
  · intro fuel r n path
    cases fuel with
    | zero => rfl
    | succ fuel => cases n with
      | mk a b c' d e f g => rfl
  · intro fuel r l path
    cases fuel <;> rfl
  · intro fuel r l path
    cases fuel <;> rfl
  · intro fuel r a path
    cases fuel <;> rfl
  · intro fuel r a path
    cases fuel <;> rfl
  · intro fuel r u path
    cases fuel <;> rfl

/-- The uses-argument stripping performed by `parse_uses` under a
recorded belongs-to prefix is exactly the specified strip: remove the
prefix and the colon when they lead the argument, else keep it
verbatim. -/
theorem parse_uses_grouping_some (pfx arg : Str) :
    parse_uses_grouping (some pfx) arg = stripSpec pfx arg := by
  simp [parse_uses_grouping, stripSpec, List.length_append]

/-- With no belongs-to prefix recorded, walking statements that contain
no belongs-to statement stores every uses argument verbatim. -/
theorem walk_fold_none (pre : List SubmoduleStmt) :
    ∀ args0 : List Str, (∀ c ∈ pre, SubmoduleStmt.isBelongsTo c = false) →
      pre.foldl parse_submodule_step ⟨none, args0⟩
        = ⟨none, args0 ++ pre.filterMap SubmoduleStmt.usesArg⟩ := by
  induction pre with
  | nil => intro args0 _; simp
  | cons c rest ih =>
    intro args0 h
    cases c with
    | belongs_to m p =>
      exact absurd (h _ (List.mem_cons_self _ _)) (by simp [SubmoduleStmt.isBelongsTo])
    | body_uses a =>
      simp only [List.foldl_cons, parse_submodule_step, parse_uses_grouping]
      rw [ih _ (fun c hc => h c (List.mem_cons_of_mem _ hc))]
      simp [SubmoduleStmt.usesArg, List.filterMap_cons]
    | other =>
      simp only [List.foldl_cons, parse_submodule_step]
      rw [ih _ (fun c hc => h c (List.mem_cons_of_mem _ hc))]
      simp [SubmoduleStmt.usesArg, List.filterMap_cons]

/-- With belongs-to prefix `pfx` recorded, walking statements that
contain no further belongs-to statement keeps the prefix recorded and
stores every uses argument in stripped form. -/
theorem walk_fold_some (post : List SubmoduleStmt) (pfx : Str) :
    ∀ args0 : List Str, (∀ c ∈ post, SubmoduleStmt.isBelongsTo c = false) →
      post.foldl parse_submodule_step ⟨some pfx, args0⟩
        = ⟨some pfx, args0 ++ (post.filterMap SubmoduleStmt.usesArg).map (stripSpec pfx)⟩ := by
  induction post with
  | nil => intro args0 _; simp
  | cons c rest ih =>
    intro args0 h
    cases c with
    | belongs_to m p =>
      exact absurd (h _ (List.mem_cons_self _ _)) (by simp [SubmoduleStmt.isBelongsTo])
    | body_uses a =>
      simp only [List.foldl_cons, parse_submodule_step, parse_uses_grouping_some]
      rw [ih _ (fun c hc => h c (List.mem_cons_of_mem _ hc))]
      simp [SubmoduleStmt.usesArg, List.filterMap_cons]
    | other =>
      simp only [List.foldl_cons, parse_submodule_step]
      rw [ih _ (fun c hc => h c (List.mem_cons_of_mem _ hc))]
      simp [SubmoduleStmt.usesArg, List.filterMap_cons]

/-- C6: while a submodule with belongs-to prefix X is being walked (the
prefix is recorded by the belongs-to statement and cleared when the
submodule parse finishes), every uses argument that begins with `X:` is
stored with the prefix and colon removed, and uses arguments carrying
any other prefix, or no prefix, are stored verbatim: arguments before
the belongs-to statement are stored verbatim, arguments after it are
stored through the strip, and the final walker state carries no
prefix. -/
theorem submodule_uses_prefix_stripping (pre post : List SubmoduleStmt)
    (m pfx : Str) (args0 : List Str)
    (hpre : ∀ c ∈ pre, SubmoduleStmt.isBelongsTo c = false)
    (hpost : ∀ c ∈ post, SubmoduleStmt.isBelongsTo c = false) :
    (parse_submodule_walk (pre ++ SubmoduleStmt.belongs_to m pfx :: post) ⟨none, args0⟩).uses_groupings
      = (args0 ++ pre.filterMap SubmoduleStmt.usesArg)
          ++ (post.filterMap SubmoduleStmt.usesArg).map (stripSpec pfx)
    ∧ (parse_submodule_walk (pre ++ SubmoduleStmt.belongs_to m pfx :: post) ⟨none, args0⟩).current_belongs_to_pfx
        = none := by
  have hfold : (pre ++ SubmoduleStmt.belongs_to m pfx :: post).foldl parse_submodule_step ⟨none, args0⟩
      = ⟨some pfx, (args0 ++ pre.filterMap SubmoduleStmt.usesArg)
          ++ (post.filterMap SubmoduleStmt.usesArg).map (stripSpec pfx)⟩ := by
    rw [List.foldl_append, walk_fold_none pre args0 hpre, List.foldl_cons]
    exact walk_fold_some post pfx _ hpost
  constructor
  · show (⟨none, ((pre ++ SubmoduleStmt.belongs_to m pfx :: post).foldl parse_submodule_step
        ⟨none, args0⟩).uses_groupings⟩ : SubWalkState).uses_groupings = _
    rw [hfold]
  · rfl

/-- Witness for `submodule_uses_prefix_stripping`: before belongs-to
`(prefix p)` the argument `g0` is stored verbatim; after it, `p:gA` is
stripped to `gA` while `q:gB` (another prefix) stays verbatim; the
walker ends with no recorded prefix. -/
theorem submodule_uses_prefix_stripping_witness :
    (parse_submodule_walk
        ([SubmoduleStmt.other, SubmoduleStmt.body_uses "g0".toList]
          ++ SubmoduleStmt.belongs_to "mainmod".toList "p".toList
            :: [SubmoduleStmt.body_uses "p:gA".toList, SubmoduleStmt.body_uses "q:gB".toList])
        ⟨none, []⟩).uses_groupings
      = (([] : List Str) ++ [SubmoduleStmt.other, SubmoduleStmt.body_uses "g0".toList].filterMap SubmoduleStmt.usesArg)
          ++ ([SubmoduleStmt.body_uses "p:gA".toList, SubmoduleStmt.body_uses "q:gB".toList].filterMap
                SubmoduleStmt.usesArg).map (stripSpec "p".toList)
    ∧ (parse_submodule_walk
        ([SubmoduleStmt.other, SubmoduleStmt.body_uses "g0".toList]
          ++ SubmoduleStmt.belongs_to "mainmod".toList "p".toList
            :: [SubmoduleStmt.body_uses "p:gA".toList, SubmoduleStmt.body_uses "q:gB".toList])
        ⟨none, []⟩).current_belongs_to_pfx = none :=
  submodule_uses_prefix_stripping
    [SubmoduleStmt.other, SubmoduleStmt.body_uses "g0".toList]
    [SubmoduleStmt.body_uses "p:gA".toList, SubmoduleStmt.body_uses "q:gB".toList]
    "mainmod".toList "p".toList [] (by decide) (by decide)

/-- C8 counterexample: a concatenated string literal `"a" + "b"` (a
`string` node with two double-quoted children, as the spec describes
concatenation) parses to the bytes of its FIRST part only — `a`, not the
concatenation `ab` the claim requires — because `parse_string` reads only
the first child of the pair. -/
theorem parse_string_concat_counterexample :
    parse_string (.str [.double_quoted "\"a\"".toList, .double_quoted "\"b\"".toList]) = some ['a']
    ∧ some ['a'] ≠ some ("ab".toList) :=
  ⟨rfl, by decide⟩

/-- C8 amended: an unquoted token is returned verbatim; a single- or
double-quoted token has exactly the one outer layer of matching quotes
removed; and a concatenated string literal reduces to its first part
alone (the walker reads only the first child, so no concatenation is
performed). -/
theorem parse_string_amended :
    (∀ s : Str, parse_string (.str [.unquoted s]) = some s)
    ∧ (∀ s : Str, parse_string (.str [.double_quoted ('"' :: (s ++ ['"']))]) = some s)
    ∧ (∀ s : Str, parse_string (.str [.single_quoted ('\'' :: (s ++ ['\'']))]) = some s)
    ∧ (∀ (v : StrTree) (rest : List StrTree),
        parse_string (.str (v :: rest)) = parse_string (.str [v])) := by
  refine ⟨fun s => rfl, ?_, ?_, ?_⟩
  · intro s
    show some ((('"' :: (s ++ ['"'])).drop 1).dropLast) = some s
    rw [List.drop_succ_cons, List.drop_zero, List.dropLast_concat]
  · intro s
    show some ((('\'' :: (s ++ ['\''])).drop 1).dropLast) = some s
    rw [List.drop_succ_cons, List.drop_zero, List.dropLast_concat]
  · intro v rest
    cases v <;> rfl

/-- C9: under the spec-modelled grammar shape (the argument token is
either the literal `unbounded` or a non-negative 64-bit integer token),
parsing max-elements yields `Unbounded` exactly for the literal
`unbounded` and `Value n` exactly for the integer token of a
non-negative n; nothing else is produced. -/
theorem max_elements_parsing (arg : MaxElementsArg) (h : wfMaxElementsArg arg) :
    (parse_max_elements arg = some MaxElements.Unbounded ↔ arg = .string "unbounded".toList)
    ∧ (∀ n : Int, parse_max_elements arg = some (MaxElements.Value n)
        ↔ ∃ text, arg = .integer text ∧ parse_integer text = some n ∧ 0 ≤ n) := by
  cases arg with
  | string text =>
    have htext : text = "unbounded".toList := h
    subst htext
    refine ⟨by simp [parse_max_elements], ?_⟩
    intro n
    constructor
    · intro hEq
      exact absurd hEq (by simp [parse_max_elements])
    · rintro ⟨text', hA, _, _⟩
      exact absurd hA (by simp)
  | integer text =>
    obtain ⟨hne, hdig, hle⟩ := h
    cases text with
    | nil => exact absurd rfl hne
    | cons c rest =>
      have hcd : c.isDigit = true := hdig c (List.mem_cons_self c rest)
      have hplus : ¬ c = '+' := fun hc => by rw [hc] at hcd; exact absurd hcd (by decide)
      have hminus : ¬ c = '-' := fun hc => by rw [hc] at hcd; exact absurd hcd (by decide)
      have hall : (c :: rest).all Char.isDigit = true := by
        rw [List.all_eq_true]
        exact fun x hx => hdig x hx
      have hpd : parseDigits (c :: rest) = some (digitsVal (c :: rest)) := by
        simp [parseDigits, hall]
      have hparse : parse_integer (c :: rest) = some (Int.ofNat (digitsVal (c :: rest))) := by
        simp only [parse_integer, parseI64, hpd, if_neg hplus, if_neg hminus, Option.some_bind]
        rw [if_pos hle]
      have hm : parse_max_elements (.integer (c :: rest))
          = some (MaxElements.Value (Int.ofNat (digitsVal (c :: rest)))) := by
        simp [parse_max_elements, hparse]
      constructor
      · rw [hm]
        constructor
        · intro hEq; cases hEq
        · intro hEq; cases hEq
      · intro n
        rw [hm]
        constructor
        · intro hEq
          have hn : (Int.ofNat (digitsVal (c :: rest))) = n := by
            cases hEq; rfl
          exact ⟨c :: rest, rfl, by rw [hparse, hn], by rw [← hn]; exact Int.ofNat_nonneg _⟩
        · rintro ⟨text', hA, hB, hC⟩
          cases hA
          rw [hparse] at hB
          cases hB
          rfl

/-- Splitting a string that starts with a separator-free block followed
by a separator peels off that block. -/
theorem splitChar_sep_prefix (c : Char) (s : Str) (hs : ∀ ch ∈ s, ch ≠ c) (rest : Str) :
    splitChar c (s ++ c :: rest) = s :: splitChar c rest := by
  induction s with
  | nil => simp [splitChar]
  | cons x xs ih =>
    have hx : ¬ x = c := hs x (List.mem_cons_self x xs)
    have ihh := ih (fun ch hch => hs ch (List.mem_cons_of_mem x hch))
    simp [splitChar, hx, ihh]

/-- Splitting the body of a well-formed segment list yields the segments
followed by one empty trailing part. -/
theorem splitChar_segsBody (segs : List Str) (h : wfSegs segs) :
    splitChar '/' (segsBody segs) = segs ++ [[]] := by
  induction segs with
  | nil => rfl
  | cons s t ih =>
    have hs : ∀ ch ∈ s, ch ≠ '/' := by
      intro ch hch hcontra
      exact (h s (List.mem_cons_self s t)).2 (hcontra ▸ hch)
    have ht := ih (fun x hx => h x (List.mem_cons_of_mem s hx))
    show splitChar '/' (s ++ ['/'] ++ segsBody t) = (s :: t) ++ [[]]
    rw [List.append_assoc, List.singleton_append, splitChar_sep_prefix '/' s hs, ht]
    rfl

/-- Splitting a well-formed absolute path yields one empty leading part,
the segments, and one empty trailing part. -/
theorem splitChar_pathOfSegs (segs : List Str) (h : wfSegs segs) :
    splitChar '/' (pathOfSegs segs) = [] :: segs ++ [[]] := by
  show splitChar '/' ('/' :: segsBody segs) = [] :: segs ++ [[]]
  simp [splitChar, splitChar_segsBody segs h]

/-- The body of an extended segment list. -/
theorem segsBody_append (t : List Str) (s : Str) :
    segsBody (t ++ [s]) = segsBody t ++ (s ++ ['/']) := by
  induction t with
  | nil => simp [segsBody]
  | cons x t' ih =>
    show x ++ ['/'] ++ segsBody (t' ++ [s]) = (x ++ ['/'] ++ segsBody t') ++ (s ++ ['/'])
    rw [ih]
    simp [List.append_assoc]

/-- A well-formed join of a nonempty segment list is nonempty. -/
theorem joinWith_ne_nil (x : Str) (xs : List Str) (hx : x ≠ []) :
    joinWith ['/'] (x :: xs) ≠ [] := by
  cases xs with
  | nil => exact hx
  | cons y ys =>
    show (x ++ ['/'] ++ joinWith ['/'] (y :: ys)) ≠ []
    intro hcontra
    have := congrArg List.length hcontra
    simp [List.length_append] at this

/-- The last element of a cons with nonempty tail is the tail's last
element. -/
theorem getLast?_cons_ne_nil (a : Char) (xs : Str) (h : xs ≠ []) :
    (a :: xs).getLast? = xs.getLast? := by
  cases xs with
  | nil => exact absurd rfl h
  | cons y ys => rfl

/-- The join of a well-formed nonempty segment list never ends in a
slash: its last character is the last character of the last segment. -/
theorem joinWith_getLast_ne_slash (t : List Str) (hwf : wfSegs t) (hne : t ≠ []) :
    (joinWith ['/'] t).getLast? ≠ some '/' := by
  induction t with
  | nil => exact absurd rfl hne
  | cons x xs ih =>
    cases xs with
    | nil =>
      show x.getLast? ≠ some '/'
      intro hcontra
      obtain ⟨hx, hmem⟩ := List.mem_getLast?_eq_getLast (l := x) (x := '/') hcontra
      exact (hwf x (List.mem_cons_self x [])).2 (hmem ▸ List.getLast_mem hx)
    | cons y ys =>
      show ((x ++ ['/']) ++ joinWith ['/'] (y :: ys)).getLast? ≠ some '/'
      have hy : y ≠ [] := (hwf y (by simp)).1
      have hjn := joinWith_ne_nil y ys hy
      rw [List.getLast?_append_of_ne_nil (x ++ ['/']) hjn]
      exact ih (fun z hz => hwf z (List.mem_cons_of_mem x hz)) (by simp)

/-- Restoring the trailing slash after a join of a nonempty segment list
gives back the segment body. -/
theorem joinWith_append_slash (t : List Str) (hne : t ≠ []) :
    joinWith ['/'] t ++ ['/'] = segsBody t := by
  induction t with
  | nil => exact absurd rfl hne
  | cons x xs ih =>
    cases xs with
    | nil => simp [joinWith, segsBody]
    | cons y ys =>
      show ((x ++ ['/']) ++ joinWith ['/'] (y :: ys)) ++ ['/'] = x ++ ['/'] ++ segsBody (y :: ys)
      rw [List.append_assoc (x ++ ['/']), ih (by simp)]

/-- One ascent from the path of an extended well-formed segment list is
the path of the shorter list: `ascend` drops exactly the trailing
segment. -/
theorem ascend_pathOfSegs (segs : List Str) (s : Str) (h : wfSegs (segs ++ [s])) :
    ascend (pathOfSegs (segs ++ [s])) = pathOfSegs segs := by
  have hwsegs : wfSegs segs := fun z hz => h z (by simp [hz])
  have hsplit := splitChar_pathOfSegs (segs ++ [s]) h
  unfold ascend
  rw [hsplit]
  have hlen : ([] :: (segs ++ [s]) ++ [[]] : List Str).length = segs.length + 3 := by
    simp
  rw [if_neg (by rw [hlen]; omega)]
  have htake : (([] :: (segs ++ [s]) ++ [[]] : List Str)).take (([] :: (segs ++ [s]) ++ [[]] : List Str).length - 2)
      = [] :: segs := by
    rw [hlen]
    show (([] : Str) :: ((segs ++ [s]) ++ [[]])).take (segs.length + 1) = [] :: segs
    rw [List.take_succ_cons, List.append_assoc,
      List.take_append_of_le_length (by simp), List.take_length]
  rw [htake]
  cases segs with
  | nil => rfl
  | cons z zs =>
    show (let joined := joinWith ['/'] ([] :: z :: zs);
      if joined.getLast? = some '/' then joined else joined ++ ['/']) = pathOfSegs (z :: zs)
    have hj : joinWith ['/'] ([] :: z :: zs) = '/' :: joinWith ['/'] (z :: zs) := by
      show ([] ++ ['/'] ++ joinWith ['/'] (z :: zs)) = '/' :: joinWith ['/'] (z :: zs)
      simp
    have hz : z ≠ [] := (hwsegs z (by simp)).1
    have hlast : (joinWith ['/'] ([] :: z :: zs)).getLast? ≠ some '/' := by
      rw [hj, getLast?_cons_ne_nil '/' _ (joinWith_ne_nil z zs hz)]
      exact joinWith_getLast_ne_slash (z :: zs) hwsegs (by simp)
    simp only [if_neg hlast]
    rw [hj]
    show ('/' :: joinWith ['/'] (z :: zs)) ++ ['/'] = pathOfSegs (z :: zs)
    rw [List.cons_append, joinWith_append_slash (z :: zs) (by simp)]
    rfl

/-- Witness for `max_elements_parsing`: the integer token `5` is
well-formed, and the theorem's Value direction yields
`parse_max_elements (integer 5) = some (Value 5)`. -/
theorem max_elements_parsing_witness :
    wfMaxElementsArg (.integer ['5'])
    ∧ parse_max_elements (.integer ['5']) = some (MaxElements.Value 5) :=
  ⟨⟨by decide, by decide, by decide⟩,
   ((max_elements_parsing (.integer ['5']) ⟨by decide, by decide, by decide⟩).2 5).mpr
     ⟨['5'], rfl, by decide, by decide⟩⟩

/-- The path of an extended segment list is never the root path. -/
theorem pathOfSegs_ne_root (t : List Str) (s : Str) :
    pathOfSegs (t ++ [s]) ≠ ['/'] := by
  intro hcontra
  have h1 : segsBody (t ++ [s]) = [] := by
    have := congrArg List.tail hcontra
    simpa [pathOfSegs] using this
  rw [segsBody_append] at h1
  have := congrArg List.length h1
  simp [List.length_append] at this

/-- A path is strictly longer than its segment count. -/
theorem pathOfSegs_length (segs : List Str) :
    segs.length + 1 ≤ (pathOfSegs segs).length := by
  induction segs with
  | nil => simp [pathOfSegs, segsBody]
  | cons s t ih =>
    show t.length + 1 + 1 ≤ ('/' :: (s ++ ['/'] ++ segsBody t)).length
    have ih2 : t.length + 1 ≤ ('/' :: segsBody t).length := ih
    simp [List.length_append] at ih2 ⊢
    omega

/-- The candidate list of an extended segment list is its own path
followed by the shorter list's candidates. -/
theorem specCandidates_append (t : List Str) (s : Str) :
    specCandidates (t ++ [s]) = pathOfSegs (t ++ [s]) :: specCandidates t := by
  show ((List.range ((t ++ [s]).length + 1)).reverse).map (fun k => pathOfSegs ((t ++ [s]).take k))
      = pathOfSegs (t ++ [s]) :: specCandidates t
  rw [show (t ++ [s]).length = t.length + 1 by simp]
  rw [List.range_succ, List.reverse_append, List.reverse_singleton, List.singleton_append,
    List.map_cons]
  congr 1
  · rw [show t.length + 1 = (t ++ [s]).length by simp, List.take_length]
  · show _ = specCandidates t
    unfold specCandidates
    apply List.map_congr_left
    intro k hk
    have hk2 : k ≤ t.length := by
      simp [List.mem_reverse, List.mem_range] at hk
      omega
    rw [List.take_append_of_le_length hk2]

/-- Correctness of the hierarchical climb: starting from the path of a
well-formed segment list with enough fuel, `climb` returns the first hit
among the candidate scope prefixes, longest first, and `none` when every
candidate misses. -/
theorem climb_spec (G : List (Str × Grouping)) (grouping_name : Str) (segs : List Str) :
    ∀ fuel : Nat, wfSegs segs → segs.length + 1 ≤ fuel →
      climb G grouping_name fuel (pathOfSegs segs)
        = (specCandidates segs).findSome? (fun S => List.lookup (S ++ grouping_name) G) := by
  induction segs using List.reverseRecOn with
  | nil =>
    intro fuel _ hfuel
    cases fuel with
    | zero => omega
    | succ f =>
      have hstep : climb G grouping_name (f + 1) (pathOfSegs [])
          = match List.lookup (pathOfSegs [] ++ grouping_name) G with
            | some grouping => some grouping
            | none => if pathOfSegs [] = ['/'] then none
                else climb G grouping_name f (ascend (pathOfSegs [])) := rfl
      rw [hstep, show specCandidates [] = [pathOfSegs []] from rfl]
      cases hl : List.lookup (pathOfSegs [] ++ grouping_name) G with
      | some g =>
        rw [List.findSome?_cons]
        simp only [hl]
      | none =>
        rw [List.findSome?_cons]
        simp only [hl, if_pos (show pathOfSegs [] = ['/'] from rfl)]
        rfl
  | append_singleton t s ih =>
    intro fuel hwf hfuel
    cases fuel with
    | zero => simp at hfuel
    | succ f =>
      have hstep : climb G grouping_name (f + 1) (pathOfSegs (t ++ [s]))
          = match List.lookup (pathOfSegs (t ++ [s]) ++ grouping_name) G with
            | some grouping => some grouping
            | none => if pathOfSegs (t ++ [s]) = ['/'] then none
                else climb G grouping_name f (ascend (pathOfSegs (t ++ [s]))) := rfl
      rw [hstep, specCandidates_append]
      cases hl : List.lookup (pathOfSegs (t ++ [s]) ++ grouping_name) G with
      | some g =>
        rw [List.findSome?_cons]
        simp only [hl]
      | none =>
        rw [if_neg (pathOfSegs_ne_root t s), ascend_pathOfSegs t s hwf,
          ih f (fun z hz => hwf z (by simp [hz])) (by simp at hfuel; omega),
          List.findSome?_cons]
        simp only [hl]

/-- C3: for an unprefixed grouping name referenced at the absolute path
of a well-formed segment list, `find_grouping` returns the table entry
under `S + name` for the longest scope prefix `S` of the path present in
the local groupings table — the candidates being formed by repeatedly
dropping the trailing segment down to `/` — and nothing when every
candidate misses.  An inner grouping therefore shadows an outer grouping
of the same name, and a uses outside the inner scope resolves to the
outer definition (see the witness). -/
theorem find_grouping_local_eq_scope_lookup (r : ReferenceResolver) (grouping_name : Str)
    (segs : List Str) (hname : splitColon grouping_name = none) (hwf : wfSegs segs) :
    find_grouping r grouping_name (pathOfSegs segs)
      = (specCandidates segs).findSome?
          (fun S => List.lookup (S ++ grouping_name) r.reference_nodes.groupings) := by
  unfold find_grouping
  rw [hname]
  exact climb_spec r.reference_nodes.groupings grouping_name segs
    ((pathOfSegs segs).length + 1) hwf
    (by have := pathOfSegs_length segs; omega)

/-- Witness for `find_grouping_local_eq_scope_lookup`: with `g` defined
both at `/c/g` and `/g`, a reference from inside `/c/d/` resolves to the
inner grouping (shadowing the outer), and a reference from the unrelated
scope `/x/` climbs to the outer grouping. -/
theorem find_grouping_local_eq_scope_lookup_witness :
    find_grouping exShadowResolver ['g'] (pathOfSegs [['c'], ['d']])
      = (specCandidates [['c'], ['d']]).findSome?
          (fun S => List.lookup (S ++ ['g']) exShadowResolver.reference_nodes.groupings)
    ∧ find_grouping exShadowResolver ['g'] (pathOfSegs [['c'], ['d']]) = some exGroupingInner
    ∧ find_grouping exShadowResolver ['g'] (pathOfSegs [['x']]) = some exGroupingOuter :=
  ⟨find_grouping_local_eq_scope_lookup exShadowResolver ['g'] [['c'], ['d']]
      (by decide) (by unfold wfSegs; decide),
   by rw [find_grouping_local_eq_scope_lookup exShadowResolver ['g'] [['c'], ['d']]
        (by decide) (by unfold wfSegs; decide)]; rfl,
   by rw [find_grouping_local_eq_scope_lookup exShadowResolver ['g'] [['x']]
        (by decide) (by unfold wfSegs; decide)]; rfl⟩

end YangRs

